import Mathlib

/-!
# Verification of CRDtoKCL (`main.go`)

A shallow embedding of the CRD-to-KCL batch conversion pipeline, together
with theorems settling the specification's claims about it.

The embedded pieces of `main.go` are:

* `extractAPIVersionFromName` (main.go:502-528) — the version classifier,
  built on Go's regex `_v([0-9a-zA-Z]+)` with leftmost-match semantics;
* `knownAPIVersions` (main.go:28-36);
* `removeRedundantRegexMatch` (main.go:349-386) — the per-version-directory
  deduplication of the line `regex_match = regex.match`, built on Go's
  `strings.Contains` / `strings.Replace(s, old, new, 1)` / `strings.Count`;
* `moveKclFiles` (main.go:301-337) — relocation of `.k` files into
  per-version directories;
* `removeEmptyDirs` (main.go:399-433) with `isEmptyDir` (main.go:544-556) —
  the fixed-point removal of empty directories;
* `convertCRDs` (main.go:263-287) / `runCommand` (main.go:471-485) and
  `downloadCRDs` (main.go:238-251) / `downloadFile` (main.go:443-458) —
  the fatal-error orchestration, with `os.Exit(1)` modelled as a
  short-circuit of the remaining pipeline stages.

Filesystem state is modelled explicitly: a version directory is a list of
(name, content) files in directory-listing order, the batch tree of
`removeEmptyDirs` is a rose tree of files and directories, and external
effects (HTTP, subprocess exit status) are oracles passed as functions.
I/O errors that the code merely logs are outside the model (the runs
considered are those where reads and writes succeed), matching the claims,
which all quantify over successful runs.
-/

/-! ## Version classifier (main.go:502-528)

Go's `regexp.FindStringSubmatch` with pattern `_v([0-9a-zA-Z]+)` returns the
leftmost match; the capture group is the maximal run of ASCII alphanumerics
after the leftmost `_v` that is followed by at least one alphanumeric.  We
embed that regex semantics directly: `vMatchAt l i` says the pattern matches
starting at position `i`, `vTokenAt l i` is the captured token there, and
`firstVMatchPos` finds the leftmost matching position.
-/

/-- main.go:28-36, `knownAPIVersions`. -/
def knownAPIVersions : List String :=
  ["v1", "v2", "v3", "v4", "v5", "v6", "v7", "v8", "v9", "v10",
   "v1alpha1", "v1alpha2", "v1alpha3", "v1alpha4", "v1alpha5",
   "v2alpha1", "v2alpha2", "v2alpha3", "v2alpha4", "v2alpha5",
   "v3alpha1", "v3alpha2", "v3alpha3", "v3alpha4", "v3alpha5",
   "v1beta1", "v1beta2", "v1beta3", "v1beta4", "v1beta5",
   "v2beta1", "v2beta2", "v2beta3", "v2beta4", "v2beta5",
   "v3beta1", "v3beta2", "v3beta3", "v3beta4", "v3beta5"]

/-- The regex character class `[0-9a-zA-Z]`. -/
def isAlnumChar (c : Char) : Bool :=
  ('0' ≤ c && c ≤ '9') || ('a' ≤ c && c ≤ 'z') || ('A' ≤ c && c ≤ 'Z')

/-- The pattern `_v([0-9a-zA-Z]+)` matches `l` starting at position `i`. -/
def vMatchAt (l : List Char) (i : Nat) : Bool :=
  match l.drop i with
  | '_' :: 'v' :: c :: _ => isAlnumChar c
  | _ => false

/-- The capture group of a match starting at position `i`: the maximal
alphanumeric run after the `_v`. -/
def vTokenAt (l : List Char) (i : Nat) : List Char :=
  (l.drop (i + 2)).takeWhile isAlnumChar

/-- Position of the leftmost match of `_v([0-9a-zA-Z]+)`, as found by
`regexp.FindStringSubmatch`. -/
def firstVMatchPos (l : List Char) : Option Nat :=
  (List.range l.length).find? (vMatchAt l)

/-- main.go:502-528, `extractAPIVersionFromName`.  The second component is
the Go error value, which the function always returns as `nil` (`none`). -/
def extractAPIVersionFromName (name : String) : String × Option String :=
  match firstVMatchPos name.data with
  | some i =>
    let apiVersion := "v" ++ String.mk (vTokenAt name.data i)
    if apiVersion ∈ knownAPIVersions then (apiVersion, none)
    else ("unknown_api_version", none)
  | none => ("unknown_api_version", none)

/-! ## Helper lemmas about the leftmost match -/

theorem vMatchAt_lt_length {l : List Char} {i : Nat}
    (h : vMatchAt l i = true) : i < l.length := by
  by_contra hlt
  push_neg at hlt
  rw [vMatchAt, List.drop_eq_nil_of_le hlt] at h
  simp at h

theorem find?_append_some {α : Type} {p : α → Bool} {l₁ l₂ : List α} {a : α}
    (h : l₁.find? p = some a) : (l₁ ++ l₂).find? p = some a := by
  simp [List.find?_append, h]

theorem find?_append_none {α : Type} {p : α → Bool} {l₁ l₂ : List α}
    (h : l₁.find? p = none) : (l₁ ++ l₂).find? p = l₂.find? p := by
  simp [List.find?_append, h]

theorem find?_range_least {p : Nat → Bool} {n i : Nat} (hin : i < n)
    (hp : p i = true) (hleast : ∀ j, j < i → p j = false) :
    (List.range n).find? p = some i := by
  induction n with
  | zero => omega
  | succ n ih =>
    rw [List.range_succ]
    rcases Nat.lt_or_ge i n with hlt | hge
    · exact find?_append_some (ih hlt)
    · have hi : i = n := by omega
      subst hi
      have hnone : (List.range i).find? p = none := by
        rw [List.find?_eq_none]
        intro x hx
        rw [List.mem_range] at hx
        simp [hleast x hx]
      rw [find?_append_none hnone, List.find?_cons_of_pos _ hp]

/-- If `i` is the position of the leftmost `_v<token>` match in `name`, the
classifier's result is determined by the token captured there. -/
theorem extract_eq_of_least {name : String} {i : Nat}
    (hp : vMatchAt name.data i = true)
    (hleast : ∀ j, j < i → vMatchAt name.data j = false) :
    extractAPIVersionFromName name =
      (if "v" ++ String.mk (vTokenAt name.data i) ∈ knownAPIVersions
       then ("v" ++ String.mk (vTokenAt name.data i), none)
       else ("unknown_api_version", none)) := by
  have hfind : firstVMatchPos name.data = some i :=
    find?_range_least (vMatchAt_lt_length hp) hp hleast
  simp only [extractAPIVersionFromName]
  rw [hfind]

/-- If no position of `name` matches `_v<token>`, the classifier returns the
sentinel. -/
theorem extract_eq_of_no_match {name : String}
    (h : ∀ i, i < name.data.length → vMatchAt name.data i = false) :
    extractAPIVersionFromName name = ("unknown_api_version", none) := by
  have hfind : firstVMatchPos name.data = none := by
    rw [firstVMatchPos, List.find?_eq_none]
    intro x hx
    rw [List.mem_range] at hx
    simp [h x hx]
  simp only [extractAPIVersionFromName]
  rw [hfind]

/-- The classifier returns a known version or the sentinel, never anything
else, and its error component is always `nil`. -/
theorem extract_mem_or_unknown (name : String) :
    ((extractAPIVersionFromName name).1 ∈ knownAPIVersions ∨
      (extractAPIVersionFromName name).1 = "unknown_api_version")
    ∧ (extractAPIVersionFromName name).2 = none := by
  rcases hf : firstVMatchPos name.data with _ | i
  · simp [extractAPIVersionFromName, hf]
  · by_cases hv : "v" ++ String.mk (vTokenAt name.data i) ∈ knownAPIVersions
    · simp [extractAPIVersionFromName, hf, hv]
    · simp [extractAPIVersionFromName, hf, hv]

/-- C1: `classify(name)` finds the leftmost `_v<token>` occurrence, forms
`"v" + token`, returns it exactly when it is one of the enumerated known
version strings, and returns the sentinel (`"unknown_api_version"`, which
the spec calls `unknown`) otherwise — also when no occurrence exists.  It
is pure and total, and the returned Go error is always `nil`. -/
theorem extractAPIVersion_classifies (name : String) :
    (extractAPIVersionFromName name).2 = none
    ∧ (∀ i : Nat, vMatchAt name.data i = true →
        (∀ j : Nat, j < i → vMatchAt name.data j = false) →
        extractAPIVersionFromName name =
          (if "v" ++ String.mk (vTokenAt name.data i) ∈ knownAPIVersions
           then ("v" ++ String.mk (vTokenAt name.data i), none)
           else ("unknown_api_version", none)))
    ∧ ((∀ i : Nat, i < name.data.length → vMatchAt name.data i = false) →
        extractAPIVersionFromName name = ("unknown_api_version", none)) :=
  ⟨(extract_mem_or_unknown name).2,
   fun _ hp hleast => extract_eq_of_least hp hleast,
   extract_eq_of_no_match⟩

/-- Witness for C1: a name with a known leftmost token classifies to it; a
name with no `_v<token>` at all classifies to the sentinel. -/
theorem extractAPIVersion_classifies_witness :
    extractAPIVersionFromName "widget_v1.yaml" = ("v1", none)
    ∧ extractAPIVersionFromName "plainresource.yaml" =
        ("unknown_api_version", none) := by
  constructor
  · have h := (extractAPIVersion_classifies "widget_v1.yaml").2.1 6
      (by decide) (by decide)
    rw [h]; decide
  · exact (extractAPIVersion_classifies "plainresource.yaml").2.2 (by decide)

/-- C4: with several `_v<token>` occurrences only the leftmost counts:
`classify "foo_v2_bar_v1beta1" = v2`, and in general the result is the
leftmost candidate (or the sentinel when that candidate is unknown),
independent of any later occurrence `j`. -/
theorem extractAPIVersion_leftmost_only :
    (extractAPIVersionFromName "foo_v2_bar_v1beta1").1 = "v2"
    ∧ ∀ (name : String) (i j : Nat), i < j →
        vMatchAt name.data i = true →
        (∀ k : Nat, k < i → vMatchAt name.data k = false) →
        vMatchAt name.data j = true →
        extractAPIVersionFromName name =
          (if "v" ++ String.mk (vTokenAt name.data i) ∈ knownAPIVersions
           then ("v" ++ String.mk (vTokenAt name.data i), none)
           else ("unknown_api_version", none)) :=
  ⟨by decide,
   fun _ _ _ _ hp hleast _ => extract_eq_of_least hp hleast⟩

/-- Witness for C4: in `a_vXX_v1beta1` the leftmost match (position 1,
candidate `vXX`, unknown) wins over the later known `_v1beta1`
(position 5): the result is the sentinel, not `v1beta1`. -/
theorem extractAPIVersion_leftmost_only_witness :
    (extractAPIVersionFromName "a_vXX_v1beta1").1 = "unknown_api_version" := by
  have h := extractAPIVersion_leftmost_only.2 "a_vXX_v1beta1" 1 5
    (by decide) (by decide) (by decide) (by decide)
  rw [h]; decide

/-! ## Deduplication pass (main.go:349-386)

`removeRedundantRegexMatch` iterates over `knownAPIVersions` in declaration
order; for each version it lists `baseDir/apiVersion` (a read failure skips
the version) and scans the files in listing order.  The first `.k` file
whose content contains `"regex_match = regex.match"` sets a `found` flag
and is left untouched; every later `.k` file containing the line has the
first occurrence of the line removed (`strings.Replace(s, line, "", 1)`).

The model: a directory is a `List KFile` in listing order; the whole
filesystem is `String → List KFile`, mapping a directory name under
`baseDir` to its listing.  `containsSub`, `replaceFirstSub` and `countSub`
embed Go's `strings.Contains`, `strings.Replace(s, old, new, 1)` and
`strings.Count` (for a nonempty pattern: the scan finds occurrences left to
right and skips past each whole occurrence).
-/

/-- A generated file: base name plus content. -/
structure KFile where
  name : String
  content : List Char
deriving DecidableEq

/-- The deduplicated boilerplate line `regex_match = regex.match`. -/
def boilerplate : List Char := "regex_match = regex.match".data

/-- Go `strings.HasSuffix(s, ".k")`. -/
def hasKSuffix (s : String) : Bool := ".k".data.isSuffixOf s.data

/-- Go `strings.Contains(l, sub)`. -/
def containsSub (sub : List Char) : List Char → Bool
  | [] => sub.isEmpty
  | x :: xs => sub.isPrefixOf (x :: xs) || containsSub sub xs

/-- Go `strings.Replace(l, sub, repl, 1)`: replace the first occurrence. -/
def replaceFirstSub (sub repl : List Char) : List Char → List Char
  | [] => if sub.isEmpty then repl else []
  | x :: xs =>
    if sub.isPrefixOf (x :: xs) then repl ++ (x :: xs).drop sub.length
    else x :: replaceFirstSub sub repl xs

/-- Scanner for Go `strings.Count(l, sub)` with a nonempty pattern:
`skip` is the number of positions still inside the occurrence found last
(Go's `Index`-and-advance loop skips past each whole occurrence). -/
def countSubAux (sub : List Char) : Nat → List Char → Nat
  | _, [] => 0
  | skip + 1, _ :: xs => countSubAux sub skip xs
  | 0, x :: xs =>
    if sub.isPrefixOf (x :: xs) then 1 + countSubAux sub (sub.length - 1) xs
    else countSubAux sub 0 xs

/-- Go `strings.Count(l, sub)` for nonempty `sub`: non-overlapping
occurrences, scanning left to right. -/
def countSub (sub l : List Char) : Nat := countSubAux sub 0 l

theorem countSubAux_drop (sub : List Char) :
    ∀ (xs : List Char) (n : Nat), countSubAux sub n xs = countSub sub (xs.drop n) := by
  intro xs
  induction xs with
  | nil => intro n; cases n <;> rfl
  | cons x xs ih =>
    intro n
    cases n with
    | zero => rfl
    | succ n => rw [List.drop_succ_cons, ← ih n]; rfl

theorem countSub_nil (sub : List Char) : countSub sub [] = 0 := rfl

theorem countSub_cons (sub : List Char) (x : Char) (xs : List Char) :
    countSub sub (x :: xs) =
      if sub.isPrefixOf (x :: xs)
      then 1 + countSub sub (xs.drop (sub.length - 1))
      else countSub sub xs := by
  show countSubAux sub 0 (x :: xs) = _
  rw [countSubAux, countSubAux_drop]
  rfl

/-- The condition under which the loop body of main.go:358-383 acts on a
file: a `.k` name whose content contains the boilerplate line. -/
def isCand (f : KFile) : Bool :=
  hasKSuffix f.name && containsSub boilerplate f.content

/-- The write at main.go:368-369: remove the first occurrence of the line. -/
def stripBoilerplate (f : KFile) : KFile :=
  { f with content := replaceFirstSub boilerplate [] f.content }

/-- The inner loop of main.go:357-384 over one version directory, carrying
the `found` flag. -/
def removeRedundantInDir (found : Bool) : List KFile → List KFile
  | [] => []
  | f :: fs =>
    if isCand f then
      if found then stripBoilerplate f :: removeRedundantInDir true fs
      else f :: removeRedundantInDir true fs
    else f :: removeRedundantInDir found fs

/-- One iteration of the loop at main.go:350-385: process the directory
named `apiVersion`, leaving every other directory as it was. -/
def dedupStep (acc : String → List KFile) (apiVersion : String) :
    String → List KFile :=
  fun d => if d = apiVersion then removeRedundantInDir false (acc d) else acc d

/-- main.go:349-386, `removeRedundantRegexMatch`: run the inner loop on the
directory of each known version, in the enumeration's declaration order. -/
def removeRedundantRegexMatch (dirs : String → List KFile) : String → List KFile :=
  knownAPIVersions.foldl dedupStep dirs

/-- Total number of occurrences of the boilerplate line over the `.k` files
of one directory listing. -/
def kOccTotal (files : List KFile) : Nat :=
  (files.map (fun f =>
    if hasKSuffix f.name then countSub boilerplate f.content else 0)).sum

/-- A file is clean when removing the first occurrence of the boilerplate
line from it leaves no occurrence: it holds the line at most once, and that
occurrence does not overlap surrounding text (the shape the generator
emits).  Files without the line are clean. -/
def cleanFile (f : KFile) : Bool :=
  ! containsSub boilerplate (replaceFirstSub boilerplate [] f.content)

/-! ### Lemmas about the string helpers -/

theorem boilerplate_ne_nil : boilerplate ≠ [] := by decide

theorem replaceFirst_of_not_contains {sub l : List Char}
    (h : containsSub sub l = false) : replaceFirstSub sub [] l = l := by
  induction l with
  | nil =>
    rw [containsSub] at h
    rw [replaceFirstSub, if_neg]
    simp [h]
  | cons x xs ih =>
    rw [containsSub, Bool.or_eq_false_iff] at h
    rw [replaceFirstSub, if_neg (by simp [h.1])]
    rw [ih h.2]

theorem countSub_of_not_contains {sub l : List Char}
    (h : containsSub sub l = false) : countSub sub l = 0 := by
  induction l with
  | nil => rw [countSub_nil]
  | cons x xs ih =>
    rw [containsSub, Bool.or_eq_false_iff] at h
    rw [countSub_cons, if_neg (by simp [h.1])]
    exact ih h.2

theorem countSub_eq_one {sub l : List Char} (hs : sub ≠ [])
    (hc : containsSub sub l = true)
    (hclean : containsSub sub (replaceFirstSub sub [] l) = false) :
    countSub sub l = 1 := by
  induction l with
  | nil =>
    rw [containsSub, List.isEmpty_iff] at hc
    exact absurd hc hs
  | cons x xs ih =>
    by_cases hpre : sub.isPrefixOf (x :: xs) = true
    · have hdrop : (x :: xs).drop sub.length = xs.drop (sub.length - 1) := by
        cases hl : sub.length with
        | zero => exact absurd (List.length_eq_zero.mp hl) hs
        | succ n => simp [List.drop_succ_cons]
      rw [replaceFirstSub, if_pos hpre, List.nil_append, hdrop] at hclean
      rw [countSub_cons, if_pos hpre, countSub_of_not_contains hclean]
    · rw [Bool.not_eq_true] at hpre
      rw [containsSub, hpre, Bool.false_or] at hc
      rw [replaceFirstSub, if_neg (by simp [hpre]), containsSub,
        Bool.or_eq_false_iff] at hclean
      rw [countSub_cons, if_neg (by simp [hpre])]
      exact ih hc hclean.2

/-! ### Lemmas about the in-directory pass -/

theorem removeRedundantInDir_getElem (files : List KFile) (found : Bool)
    (i : Nat) :
    (removeRedundantInDir found files)[i]? =
      (files[i]?).map (fun f =>
        if isCand f && (found || (files.take i).any isCand)
        then stripBoilerplate f else f) := by
  induction files generalizing found i with
  | nil => simp [removeRedundantInDir]
  | cons f fs ih =>
    cases i with
    | zero =>
      by_cases hc : isCand f = true <;> cases found <;>
        simp [removeRedundantInDir, hc]
    | succ i =>
      rw [List.take_succ_cons]
      by_cases hc : isCand f = true
      · rw [removeRedundantInDir, if_pos hc]
        cases found
        · rw [if_neg (by simp), List.getElem?_cons_succ, ih]
          simp [hc]
        · rw [if_pos rfl, List.getElem?_cons_succ, ih]
          simp [hc]
      · rw [removeRedundantInDir, if_neg hc]
        rw [Bool.not_eq_true] at hc
        rw [List.getElem?_cons_succ, ih]
        simp [hc]

theorem kOccTotal_cons (f : KFile) (fs : List KFile) :
    kOccTotal (f :: fs) =
      (if hasKSuffix f.name then countSub boilerplate f.content else 0)
        + kOccTotal fs := by
  simp [kOccTotal]

theorem removeRedundantInDir_total (files : List KFile) (found : Bool)
    (hclean : ∀ f ∈ files, cleanFile f = true) :
    kOccTotal (removeRedundantInDir found files) =
      if found then 0 else if files.any isCand then 1 else 0 := by
  induction files generalizing found with
  | nil => cases found <;> simp [removeRedundantInDir, kOccTotal]
  | cons f fs ih =>
    have hf : cleanFile f = true := hclean f (by simp)
    have hfs : ∀ g ∈ fs, cleanFile g = true :=
      fun g hg => hclean g (by simp [hg])
    have hfnc : containsSub boilerplate (replaceFirstSub boilerplate [] f.content)
        = false := by simpa [cleanFile] using hf
    rw [removeRedundantInDir]
    by_cases hc : isCand f = true
    · have hk : hasKSuffix f.name = true := by
        have := hc; simp [isCand] at this; exact this.1
      have hcontains : containsSub boilerplate f.content = true := by
        have := hc; simp [isCand] at this; exact this.2
      have hone : countSub boilerplate f.content = 1 :=
        countSub_eq_one boilerplate_ne_nil hcontains hfnc
      have hzero : countSub boilerplate (stripBoilerplate f).content = 0 :=
        countSub_of_not_contains hfnc
      rw [if_pos hc]
      cases found
      · rw [if_neg (by simp)]
        rw [kOccTotal_cons, ih true hfs]
        simp [hk, hone, List.any_cons, hc]
      · rw [if_pos rfl]
        rw [kOccTotal_cons, ih true hfs]
        simp [stripBoilerplate, hk, hzero]
        simp [stripBoilerplate] at hzero
        omega
    · rw [if_neg hc]
      rw [kOccTotal_cons, ih found hfs]
      have hzero : (if hasKSuffix f.name then countSub boilerplate f.content
          else 0) = 0 := by
        by_cases hk : hasKSuffix f.name = true
        · rw [if_pos hk]
          apply countSub_of_not_contains
          by_contra hcc
          rw [Bool.not_eq_false] at hcc
          exact hc (by simp [isCand, hk, hcc])
        · rw [Bool.not_eq_true] at hk
          simp [hk]
      rw [hzero, Nat.zero_add]
      rw [Bool.not_eq_true] at hc
      simp [List.any_cons, hc]

/-! ### The whole-pass lemmas -/

theorem knownAPIVersions_nodup : knownAPIVersions.Nodup := by decide

theorem foldl_dedupStep_not_mem :
    ∀ (L : List String) (acc : String → List KFile) (d : String), d ∉ L →
      (L.foldl dedupStep acc) d = acc d := by
  intro L
  induction L with
  | nil => intro acc d _; rfl
  | cons v L ih =>
    intro acc d hd
    rw [List.foldl_cons, ih _ d (fun h => hd (by simp [h]))]
    have hdv : d ≠ v := fun h => hd (by simp [h])
    simp [dedupStep, hdv]

theorem foldl_dedupStep_mem :
    ∀ (L : List String) (acc : String → List KFile) (d : String), d ∈ L →
      L.Nodup → (L.foldl dedupStep acc) d = removeRedundantInDir false (acc d) := by
  intro L
  induction L with
  | nil => intro acc d hd _; cases hd
  | cons v L ih =>
    intro acc d hd hnd
    rw [List.nodup_cons] at hnd
    rw [List.foldl_cons]
    by_cases hdv : d = v
    · subst hdv
      rw [foldl_dedupStep_not_mem L _ d hnd.1]
      simp [dedupStep]
    · have hdL : d ∈ L := by
        rcases List.mem_cons.mp hd with h | h
        · exact absurd h hdv
        · exact h
      rw [ih _ d hdL hnd.2]
      have : dedupStep acc v d = acc d := by simp [dedupStep, hdv]
      rw [this]

/-- C5: the pass leaves the first `.k` file containing the boilerplate line
byte-for-byte unchanged, leaves every file that does not contain the line
unchanged, and never modifies a directory other than the known-version
directory being processed. -/
theorem removeRedundant_frame (dirs : String → List KFile) :
    (∀ d, d ∉ knownAPIVersions → removeRedundantRegexMatch dirs d = dirs d)
    ∧ (∀ v, v ∈ knownAPIVersions → ∀ (i : Nat) (f : KFile),
        (dirs v)[i]? = some f →
        ((dirs v).take i).any isCand = false → isCand f = true →
        (removeRedundantRegexMatch dirs v)[i]? = some f)
    ∧ (∀ v, v ∈ knownAPIVersions → ∀ (i : Nat) (f : KFile),
        (dirs v)[i]? = some f →
        containsSub boilerplate f.content = false →
        (removeRedundantRegexMatch dirs v)[i]? = some f) := by
  refine ⟨?_, ?_, ?_⟩
  · intro d hd
    exact foldl_dedupStep_not_mem _ _ _ hd
  · intro v hv i f hf hnoc hcand
    simp only [removeRedundantRegexMatch]
    rw [foldl_dedupStep_mem _ _ _ hv knownAPIVersions_nodup]
    rw [removeRedundantInDir_getElem, hf]
    simp [hnoc]
  · intro v hv i f hf hnc
    simp only [removeRedundantRegexMatch]
    rw [foldl_dedupStep_mem _ _ _ hv knownAPIVersions_nodup]
    rw [removeRedundantInDir_getElem, hf]
    have hcf : isCand f = false := by simp [isCand, hnc]
    simp [hcf]

/-- Witness for C5, on the directory map sending `v1` to
`[a.k, b.k, d.k]` (the first two contain the line, `d.k` does not) and
every other name to `[x.k]` (which contains the line): the non-version
directory is untouched, `a.k` (first candidate) is untouched, `d.k` (no
line) is untouched. -/
theorem removeRedundant_frame_witness :
    removeRedundantRegexMatch
        (fun d => if d = "v1"
          then [⟨"a.k", boilerplate⟩, ⟨"b.k", boilerplate⟩, ⟨"d.k", ['x']⟩]
          else [⟨"x.k", boilerplate⟩]) "unknown_api_version"
      = [⟨"x.k", boilerplate⟩]
    ∧ (removeRedundantRegexMatch
        (fun d => if d = "v1"
          then [⟨"a.k", boilerplate⟩, ⟨"b.k", boilerplate⟩, ⟨"d.k", ['x']⟩]
          else [⟨"x.k", boilerplate⟩]) "v1")[0]?
      = some ⟨"a.k", boilerplate⟩
    ∧ (removeRedundantRegexMatch
        (fun d => if d = "v1"
          then [⟨"a.k", boilerplate⟩, ⟨"b.k", boilerplate⟩, ⟨"d.k", ['x']⟩]
          else [⟨"x.k", boilerplate⟩]) "v1")[2]?
      = some ⟨"d.k", ['x']⟩ := by
  refine ⟨?_, ?_, ?_⟩
  · exact (removeRedundant_frame _).1 "unknown_api_version" (by decide)
  · exact (removeRedundant_frame _).2.1 "v1" (by decide) 0 _ (by decide)
      (by decide) (by decide)
  · exact (removeRedundant_frame _).2.2 "v1" (by decide) 2 _ (by decide)
      (by decide)

/-- Counterexample to C2 as stated: a `v1` directory whose single `.k` file
contains the boilerplate line twice.  That file is the first (and only)
file containing the line, so the pass leaves it untouched and two
occurrences remain across the directory's `.k` files — not exactly one. -/
theorem removeRedundant_not_always_one :
    kOccTotal (removeRedundantRegexMatch
        (fun d => if d = "v1"
          then [⟨"first.k", boilerplate ++ '\n' :: boilerplate⟩] else [])
        "v1") = 2
    ∧ (2 : Nat) ≠ 1 := by
  constructor
  · decide
  · decide

/-- C2 (amended): when at least one `.k` file of a known-version directory
contains the boilerplate line and every file is `cleanFile` (it holds the
line at most once and removing that occurrence leaves no occurrence — the
shape of generated files), exactly one occurrence of the line remains
across the directory's `.k` files after the pass. -/
theorem removeRedundant_leaves_one (dirs : String → List KFile) (v : String)
    (hv : v ∈ knownAPIVersions)
    (hclean : ∀ f ∈ dirs v, cleanFile f = true)
    (hsome : (dirs v).any isCand = true) :
    kOccTotal (removeRedundantRegexMatch dirs v) = 1 := by
  simp only [removeRedundantRegexMatch]
  rw [foldl_dedupStep_mem _ _ _ hv knownAPIVersions_nodup]
  rw [removeRedundantInDir_total _ _ hclean]
  simp [hsome]

/-- Witness for the amended C2: two `.k` files in `v1`, each holding the
line exactly once; afterwards exactly one occurrence remains in total. -/
theorem removeRedundant_leaves_one_witness :
    kOccTotal (removeRedundantRegexMatch
        (fun d => if d = "v1"
          then [⟨"a.k", boilerplate⟩, ⟨"b.k", boilerplate⟩] else [])
        "v1") = 1 :=
  removeRedundant_leaves_one _ "v1" (by decide) (by decide) (by decide)

/-! ## Relocation of generated files (main.go:301-337)

`moveKclFiles` walks the batch tree; every regular file whose name ends in
`.k` is renamed to `baseDir/<apiVersion>/<name>` where `apiVersion` is
`extractAPIVersionFromName(name)` (the error branch at main.go:308-314 is
dead: the classifier's error is always `nil`, and its own fallback is the
same sentinel string).  Because a file's destination depends only on its
base name, re-encountering an already-moved file later in the walk renames
it onto its own path; the final position of each file is therefore the
single-pass image modelled here.  A file is a directory path (components
relative to `baseDir`) plus a base name; the claim quantifies over runs
with no move failures, so renames always succeed in the model. -/
structure PFile where
  dir : List String
  name : String
deriving DecidableEq

/-- main.go:301-337, `moveKclFiles` (the relocation part; the dedup pass it
tail-calls is `removeRedundantRegexMatch` above). -/
def moveKclFiles (files : List PFile) : List PFile :=
  files.map fun f =>
    if hasKSuffix f.name
    then { f with dir := [(extractAPIVersionFromName f.name).1] }
    else f

/-- C3: after organize completes with no move failures, every `.k` file
lives in `baseDir/<tag>` with `tag` its base name's classification, and a
file whose name yields no known version lives in the sentinel directory
`unknown_api_version` (the spec's `unknown`). -/
theorem moveKclFiles_places_by_version (files : List PFile) (f : PFile)
    (hf : f ∈ moveKclFiles files) (hk : hasKSuffix f.name = true) :
    f.dir = [(extractAPIVersionFromName f.name).1]
    ∧ ((extractAPIVersionFromName f.name).1 ∉ knownAPIVersions →
        f.dir = ["unknown_api_version"]) := by
  rcases List.mem_map.mp hf with ⟨g, hg, hfg⟩
  by_cases hgk : hasKSuffix g.name = true
  · rw [if_pos hgk] at hfg
    have hname : f.name = g.name := by rw [← hfg]
    have hdir : f.dir = [(extractAPIVersionFromName g.name).1] := by
      rw [← hfg]
    constructor
    · rw [hdir, hname]
    · intro hmem
      rw [hname] at hmem
      rw [hdir]
      rcases (extract_mem_or_unknown g.name).1 with hin | hout
      · exact absurd hin hmem
      · rw [hout]
  · rw [if_neg hgk] at hfg
    rw [← hfg] at hk
    exact absurd hk hgk

/-- Witness for C3: the generated file of a source with no `_v<token>` in
its name is placed in the sentinel directory. -/
theorem moveKclFiles_places_by_version_witness :
    (⟨["unknown_api_version"], "plainresource.yaml.k"⟩ : PFile).dir
      = ["unknown_api_version"] := by
  have h := moveKclFiles_places_by_version
    [⟨["crds"], "plainresource.yaml.k"⟩]
    ⟨["unknown_api_version"], "plainresource.yaml.k"⟩
    (by decide) (by decide)
  exact h.2 (by decide)

/-! ## Directory compaction (main.go:399-433)

`removeEmptyDirs` loops: walk the whole tree collecting every directory
with zero entries (`isEmptyDir`, main.go:544-556, checks `Readdirnames`);
if none was found, stop; otherwise remove the collected directories
(deepest first — they are pairwise disjoint, since an empty directory has
no children and its parent is nonempty at collection time) and walk again.
When the root itself is empty it is collected and removed too, after which
the next walk finds nothing and the loop exits.

The model: a batch tree is a rose tree of files and directories.
`removePass` performs one collect-and-remove iteration — it deletes
exactly the directories that are empty at the start of the iteration
(`none` meaning the tree's root itself was removed); `compactLoop` iterates
it with fuel, and `removeEmptyDirs` supplies `entrySize t` as fuel, which
the termination theorem shows suffices (each productive pass strictly
shrinks the tree). -/
inductive Entry where
  | file (name : String)
  | dir (name : String) (entries : List Entry)

/-- main.go:544-556, `isEmptyDir`: a directory with zero entries. -/
def isEmptyDir : Entry → Bool
  | .file _ => false
  | .dir _ es => es.isEmpty

mutual
/-- Number of nodes of the tree; `entryListSize` sums a listing. -/
def entrySize : Entry → Nat
  | .file _ => 1
  | .dir _ es => 1 + entryListSize es
def entryListSize : List Entry → Nat
  | [] => 0
  | e :: es => entrySize e + entryListSize es
end

mutual
/-- The walk of main.go:403-417 found some directory with zero entries
(the root included). -/
def hasEmptyDir : Entry → Bool
  | .file _ => false
  | .dir _ es => es.isEmpty || hasEmptyDirList es
def hasEmptyDirList : List Entry → Bool
  | [] => false
  | e :: es => hasEmptyDir e || hasEmptyDirList es
end

mutual
/-- One collect-and-remove iteration of the loop at main.go:400-432:
remove every directory that has zero entries at the start of the
iteration.  `none` means the tree itself was an empty directory and was
removed. -/
def removePass : Entry → Option Entry
  | .file n => some (.file n)
  | .dir n es => if es.isEmpty then none else some (.dir n (removePassList es))
def removePassList : List Entry → List Entry
  | [] => []
  | e :: es =>
    match removePass e with
    | none => removePassList es
    | some e2 => e2 :: removePassList es
end

/-- The loop of main.go:400-432, with explicit fuel.  When the fuel is
exhausted the current tree is returned; `removeEmptyDirs` supplies enough
fuel for that never to happen before the fixed point. -/
def compactLoop : Nat → Entry → Option Entry
  | 0, t => some t
  | fuel + 1, t =>
    if hasEmptyDir t then
      match removePass t with
      | none => none
      | some t2 => compactLoop fuel t2
    else some t

/-- main.go:399-433, `removeEmptyDirs`. -/
def removeEmptyDirs (t : Entry) : Option Entry := compactLoop (entrySize t) t

mutual
/-- The tree contains no regular file anywhere. -/
def noFiles : Entry → Bool
  | .file _ => false
  | .dir _ es => noFilesList es
def noFilesList : List Entry → Bool
  | [] => true
  | e :: es => noFiles e && noFilesList es
end

/-- The entry is a directory. -/
def entryIsDir : Entry → Bool
  | .file _ => false
  | .dir _ _ => true

/-! ### Lemmas about one compaction pass -/

theorem entrySize_pos (t : Entry) : 1 ≤ entrySize t := by
  cases t with
  | file n => rw [entrySize]
  | dir n es => rw [entrySize]; omega

theorem removePass_of_no_empty :
    ∀ (k : Nat) (t : Entry), entrySize t ≤ k → hasEmptyDir t = false →
      removePass t = some t := by
  intro k
  induction k with
  | zero => intro t ht _; have := entrySize_pos t; omega
  | succ k ih =>
    intro t ht hne
    cases t with
    | file n => rw [removePass]
    | dir n es =>
      rw [hasEmptyDir, Bool.or_eq_false_iff] at hne
      rw [entrySize] at ht
      have aux : ∀ (l : List Entry), entryListSize l ≤ k →
          hasEmptyDirList l = false → removePassList l = l := by
        intro l
        induction l with
        | nil => intro _ _; rw [removePassList]
        | cons e l ihl =>
          intro hl hne2
          rw [hasEmptyDirList, Bool.or_eq_false_iff] at hne2
          rw [entryListSize] at hl
          have h1 : entrySize e ≤ k := by omega
          simp only [removePassList, ih e h1 hne2.1, ihl (by omega) hne2.2]
      rw [removePass, if_neg (by simp [hne.1]), aux es (by omega) hne.2]

theorem removePass_shrink :
    ∀ (k : Nat) (t : Entry), entrySize t ≤ k →
      (∀ t2, removePass t = some t2 → entrySize t2 ≤ entrySize t)
      ∧ (hasEmptyDir t = true → ∀ t2, removePass t = some t2 →
          entrySize t2 < entrySize t) := by
  intro k
  induction k with
  | zero => intro t ht; have := entrySize_pos t; omega
  | succ k ih =>
    intro t ht
    cases t with
    | file n =>
      constructor
      · intro t2 h2
        rw [removePass] at h2
        injection h2 with h2
        rw [← h2]
      · intro he
        rw [hasEmptyDir] at he
        cases he
    | dir n es =>
      rw [entrySize] at ht
      have aux : ∀ (l : List Entry), entryListSize l ≤ k →
          entryListSize (removePassList l) ≤ entryListSize l
          ∧ (hasEmptyDirList l = true →
              entryListSize (removePassList l) < entryListSize l) := by
        intro l
        induction l with
        | nil =>
          intro _
          rw [removePassList]
          exact ⟨Nat.le_refl _, by intro h; rw [hasEmptyDirList] at h; cases h⟩
        | cons e l ihl =>
          intro hl
          rw [entryListSize] at hl
          have h1 : entrySize e ≤ k := by omega
          have hl2 : entryListSize l ≤ k := by omega
          rcases hre : removePass e with _ | e2
          · -- e was an empty dir and is dropped
            have hp : entrySize e ≥ 1 := entrySize_pos e
            simp only [removePassList, hre]
            rw [entryListSize]
            constructor
            · have := (ihl hl2).1; omega
            · intro _; have := (ihl hl2).1; omega
          · simp only [removePassList, hre]
            rw [entryListSize, entryListSize]
            have hee : entrySize e2 ≤ entrySize e := (ih e h1).1 e2 hre
            constructor
            · have := (ihl hl2).1; omega
            · intro h
              rw [hasEmptyDirList] at h
              rcases Bool.or_eq_true_iff.mp h with he | hll
              · have := (ih e h1).2 he e2 hre
                have := (ihl hl2).1
                omega
              · have := (ihl hl2).2 hll
                omega
      constructor
      · intro t2 h2
        rw [removePass] at h2
        by_cases hes : es.isEmpty = true
        · rw [if_pos hes] at h2; cases h2
        · rw [if_neg hes] at h2
          injection h2 with h2
          rw [← h2, entrySize, entrySize]
          have := (aux es (by omega)).1
          omega
      · intro he t2 h2
        rw [removePass] at h2
        by_cases hes : es.isEmpty = true
        · rw [if_pos hes] at h2; cases h2
        · rw [if_neg hes] at h2
          injection h2 with h2
          rw [hasEmptyDir] at he
          rcases Bool.or_eq_true_iff.mp he with h | h
          · exact absurd h hes
          · rw [← h2, entrySize, entrySize]
            have := (aux es (by omega)).2 h
            omega

theorem compactLoop_fixed :
    ∀ (fuel : Nat) (t : Entry), entrySize t ≤ fuel →
      ∀ u, compactLoop fuel t = some u → hasEmptyDir u = false := by
  intro fuel
  induction fuel with
  | zero => intro t ht; have := entrySize_pos t; omega
  | succ fuel ih =>
    intro t ht u hu
    rw [compactLoop] at hu
    by_cases he : hasEmptyDir t = true
    · rw [if_pos he] at hu
      rcases hre : removePass t with _ | t2
      · rw [hre] at hu; cases hu
      · rw [hre] at hu
        have hlt : entrySize t2 < entrySize t :=
          (removePass_shrink (entrySize t) t (Nat.le_refl _)).2 he t2 hre
        exact ih t2 (by omega) u hu
    · rw [if_neg he] at hu
      injection hu with hu
      rw [Bool.not_eq_true] at he
      rw [← hu]
      exact he

/-- C6: compaction reaches a fixed point.  If a complete `removeEmptyDirs`
call (with every removal succeeding) returns a tree, that tree has no
empty directory anywhere — root included — and running the call again
returns it unchanged. -/
theorem removeEmptyDirs_idempotent (t u : Entry)
    (h : removeEmptyDirs t = some u) :
    hasEmptyDir u = false ∧ removeEmptyDirs u = some u := by
  have hu : hasEmptyDir u = false :=
    compactLoop_fixed (entrySize t) t (Nat.le_refl _) u h
  refine ⟨hu, ?_⟩
  rw [removeEmptyDirs]
  rcases hk : entrySize u with _ | k
  · have := entrySize_pos u; omega
  · rw [compactLoop, if_neg (by simp [hu])]

/-- Witness for C6: compacting `root/{v2(empty), a.k}` removes `v2`; the
result has no empty directory and a second compaction leaves it alone. -/
theorem removeEmptyDirs_idempotent_witness :
    hasEmptyDir (Entry.dir "root" [Entry.file "a.k"]) = false
    ∧ removeEmptyDirs (Entry.dir "root" [Entry.file "a.k"])
        = some (Entry.dir "root" [Entry.file "a.k"]) :=
  removeEmptyDirs_idempotent
    (Entry.dir "root" [Entry.dir "v2" [], Entry.file "a.k"]) _ rfl

/-- C9: compaction converges on every finite tree.  A pass on a tree with
no empty directory changes nothing (the loop stops); a pass on a tree with
an empty directory either removes the root or strictly shrinks the tree,
so `removeEmptyDirs` — whose fuel is the tree size — reaches the fixed
point: whatever tree it returns has no empty directory left. -/
theorem removeEmptyDirs_terminates (t : Entry) :
    (hasEmptyDir t = false → removePass t = some t)
    ∧ (hasEmptyDir t = true →
        removePass t = none ∨
          ∃ t2, removePass t = some t2 ∧ entrySize t2 < entrySize t)
    ∧ (∀ u, removeEmptyDirs t = some u → hasEmptyDir u = false) := by
  refine ⟨?_, ?_, ?_⟩
  · intro he
    exact removePass_of_no_empty (entrySize t) t (Nat.le_refl _) he
  · intro he
    rcases hre : removePass t with _ | t2
    · exact Or.inl rfl
    · exact Or.inr ⟨t2, rfl,
        (removePass_shrink (entrySize t) t (Nat.le_refl _)).2 he t2 hre⟩
  · intro u hu
    exact compactLoop_fixed (entrySize t) t (Nat.le_refl _) u hu

/-- Witness for C9: on `r/{a(empty), x}` a pass strictly shrinks the tree,
and the complete call returns a tree without empty directories. -/
theorem removeEmptyDirs_terminates_witness :
    (removePass (Entry.dir "r" [Entry.dir "a" [], Entry.file "x"]) = none ∨
      ∃ t2, removePass (Entry.dir "r" [Entry.dir "a" [], Entry.file "x"])
          = some t2
        ∧ entrySize t2
            < entrySize (Entry.dir "r" [Entry.dir "a" [], Entry.file "x"]))
    ∧ hasEmptyDir (Entry.dir "r" [Entry.file "x"]) = false :=
  ⟨(removeEmptyDirs_terminates
      (Entry.dir "r" [Entry.dir "a" [], Entry.file "x"])).2.1 rfl,
   (removeEmptyDirs_terminates
      (Entry.dir "r" [Entry.dir "a" [], Entry.file "x"])).2.2 _ rfl⟩

theorem noFiles_hasEmptyDir :
    ∀ (k : Nat) (t : Entry), entrySize t ≤ k → noFiles t = true →
      entryIsDir t = true → hasEmptyDir t = true := by
  intro k
  induction k with
  | zero => intro t ht _ _; have := entrySize_pos t; omega
  | succ k ih =>
    intro t ht hnf hd
    cases t with
    | file n => simp [entryIsDir] at hd
    | dir n es =>
      cases es with
      | nil => rw [hasEmptyDir]; simp
      | cons e l =>
        rw [noFiles, noFilesList, Bool.and_eq_true] at hnf
        obtain ⟨h1, h2⟩ := hnf
        cases e with
        | file m => simp [noFiles] at h1
        | dir m es2 =>
          rw [entrySize, entryListSize] at ht
          have hs : entrySize (.dir m es2) ≤ k := by omega
          have := ih _ hs h1 rfl
          rw [hasEmptyDir, hasEmptyDirList, this]
          simp

theorem removePass_noFiles :
    ∀ (k : Nat) (t : Entry), entrySize t ≤ k → noFiles t = true →
      ∀ t2, removePass t = some t2 → noFiles t2 = true := by
  intro k
  induction k with
  | zero => intro t ht; have := entrySize_pos t; omega
  | succ k ih =>
    intro t ht hnf t2 h2
    cases t with
    | file n => simp [noFiles] at hnf
    | dir n es =>
      rw [entrySize] at ht
      rw [noFiles] at hnf
      have aux : ∀ (l : List Entry), entryListSize l ≤ k →
          noFilesList l = true → noFilesList (removePassList l) = true := by
        intro l
        induction l with
        | nil => intro _ _; rw [removePassList]; rfl
        | cons e l ihl =>
          intro hl hnl
          rw [noFilesList, Bool.and_eq_true] at hnl
          rw [entryListSize] at hl
          rcases hre : removePass e with _ | e2
          · simp only [removePassList, hre]
            exact ihl (by omega) hnl.2
          · simp only [removePassList, hre]
            rw [noFilesList, ih e (by omega) hnl.1 e2 hre,
              ihl (by omega) hnl.2]
            rfl
      rw [removePass] at h2
      by_cases hes : es.isEmpty = true
      · rw [if_pos hes] at h2; cases h2
      · rw [if_neg hes] at h2
        injection h2 with h2
        rw [← h2, noFiles]
        exact aux es (by omega) hnf

theorem removePass_keeps_file :
    ∀ (k : Nat) (t : Entry), entrySize t ≤ k → noFiles t = false →
      ∃ t2, removePass t = some t2 ∧ noFiles t2 = false := by
  intro k
  induction k with
  | zero => intro t ht; have := entrySize_pos t; omega
  | succ k ih =>
    intro t ht hnf
    cases t with
    | file n => exact ⟨.file n, by rw [removePass], by rw [noFiles]⟩
    | dir n es =>
      rw [entrySize] at ht
      rw [noFiles] at hnf
      have aux : ∀ (l : List Entry), entryListSize l ≤ k →
          noFilesList l = false → noFilesList (removePassList l) = false := by
        intro l
        induction l with
        | nil => intro _ h; simp [noFilesList] at h
        | cons e l ihl =>
          intro hl hnl
          rw [entryListSize] at hl
          rw [noFilesList, Bool.and_eq_false_iff] at hnl
          rcases hnl with hne | hnl2
          · rcases ih e (by omega) hne with ⟨e2, hre, hne2⟩
            simp only [removePassList, hre]
            rw [noFilesList, hne2]
            rfl
          · rcases hre : removePass e with _ | e2
            · simp only [removePassList, hre]
              exact ihl (by omega) hnl2
            · simp only [removePassList, hre]
              rw [noFilesList, ihl (by omega) hnl2]
              simp
      have hes : es.isEmpty = false := by
        cases es with
        | nil => simp [noFilesList] at hnf
        | cons e l => rfl
      refine ⟨.dir n (removePassList es), ?_, ?_⟩
      · rw [removePass, if_neg (by simp [hes])]
      · rw [noFiles]
        exact aux es (by omega) hnf

theorem compactLoop_noFiles_none :
    ∀ (fuel : Nat) (t : Entry), entrySize t ≤ fuel → noFiles t = true →
      entryIsDir t = true → compactLoop fuel t = none := by
  intro fuel
  induction fuel with
  | zero => intro t ht _ _; have := entrySize_pos t; omega
  | succ fuel ih =>
    intro t ht hnf hd
    have he : hasEmptyDir t = true :=
      noFiles_hasEmptyDir (entrySize t) t (Nat.le_refl _) hnf hd
    rw [compactLoop, if_pos he]
    rcases hre : removePass t with _ | t2
    · rfl
    · have hnf2 : noFiles t2 = true :=
        removePass_noFiles (entrySize t) t (Nat.le_refl _) hnf t2 hre
      have hd2 : entryIsDir t2 = true := by
        cases t with
        | file n => simp [entryIsDir] at hd
        | dir n es =>
          rw [removePass] at hre
          by_cases hes : es.isEmpty = true
          · rw [if_pos hes] at hre; cases hre
          · rw [if_neg hes] at hre
            injection hre with hre
            rw [← hre, entryIsDir]
      have hlt : entrySize t2 < entrySize t :=
        (removePass_shrink (entrySize t) t (Nat.le_refl _)).2 he t2 hre
      exact ih t2 (by omega) hnf2 hd2

theorem compactLoop_keeps_file :
    ∀ (fuel : Nat) (t : Entry), noFiles t = false →
      compactLoop fuel t ≠ none := by
  intro fuel
  induction fuel with
  | zero => intro t _ h; rw [compactLoop] at h; cases h
  | succ fuel ih =>
    intro t hnf
    rw [compactLoop]
    by_cases he : hasEmptyDir t = true
    · rw [if_pos he]
      rcases removePass_keeps_file (entrySize t) t (Nat.le_refl _) hnf
        with ⟨t2, hre, hnf2⟩
      rw [hre]
      exact ih t2 hnf2
    · rw [if_neg he]
      simp

/-- C10: `removeEmptyDirs` considers the batch root itself: it deletes the
root exactly when the tree under it holds no regular file — in particular
when the root is already empty, or when removals earlier in the same call
emptied it by deleting all of its (recursively file-free) subdirectories.
The batch root therefore need not exist after a run. -/
theorem removeEmptyDirs_removes_root (n : String) (es : List Entry) :
    removeEmptyDirs (Entry.dir n es) = none
      ↔ noFiles (Entry.dir n es) = true := by
  constructor
  · intro h
    by_contra hnf
    rw [Bool.not_eq_true] at hnf
    exact compactLoop_keeps_file _ _ hnf h
  · intro h
    exact compactLoop_noFiles_none _ _ (Nat.le_refl _) h rfl

/-- Witness for C10: a root whose only entry is an empty subdirectory is
itself removed — the first pass deletes `a`, the second deletes the now
empty root. -/
theorem removeEmptyDirs_removes_root_witness :
    removeEmptyDirs (Entry.dir "root" [Entry.dir "a" []]) = none :=
  (removeEmptyDirs_removes_root "root" [Entry.dir "a" []]).mpr rfl

/-! ## Fatal-error orchestration (main.go:44-79, 238-287, 443-485)

`main` sequences `downloadCRDs`, `convertCRDs`, `moveKclFiles`,
`removeEmptyDirs`.  Inside `downloadCRDs` and `convertCRDs` any per-entry
failure calls `os.Exit(1)`, which we model as short-circuiting: the
remaining entries are not processed and the later pipeline stages do not
run.  The entry list stands for Go's (unspecified) map iteration order;
the oracles `convOk` (exit status of the `kcl import` subprocess, spawn
failures included) and `http` (outcome of `http.Get`) stand for the
external world. -/

/-- Outcome of `http.Get(url)`: a transport-level error, or a response
with a status code and a body (non-2xx responses also carry a body). -/
inductive HttpResult where
  | netErr
  | response (status : Nat) (body : String)
deriving DecidableEq

/-- main.go:443-458, `downloadFile`: on a transport error it returns the
error before touching the file; otherwise it creates/truncates the file
and streams the response body into it.  The status code is never
inspected.  Result: content of the destination file afterwards (`dest` is
its prior content), and whether the call returned `nil`. -/
def downloadFile (dest : Option String) (r : HttpResult) :
    Option String × Bool :=
  match r with
  | .netErr => (dest, false)
  | .response _ body => (some body, true)

/-- main.go:238-251, `downloadCRDs`: fetch each entry in turn; a failing
`downloadFile` prints and exits with status 1 (no further entries).
Result: the downloaded files (key, stored content) and the exit status. -/
def downloadCRDs (keys : List String) (http : String → HttpResult) :
    List (String × Option String) × Nat :=
  match keys with
  | [] => ([], 0)
  | k :: ks =>
    let r := downloadFile none (http k)
    if r.2 then
      let rest := downloadCRDs ks http
      ((k, r.1) :: rest.1, rest.2)
    else ([], 1)

/-- The body of a response (the empty string for a transport error). -/
def bodyOf : HttpResult → String
  | .netErr => ""
  | .response _ body => body

/-- main.go:263-287, `convertCRDs`: run the converter subprocess on each
entry in turn; a nonzero exit or spawn failure (`convOk key = false`)
prints and exits with status 1.  Result: the converted keys and whether
all conversions succeeded. -/
def convertCRDs (keys : List String) (convOk : String → Bool) :
    List String × Bool :=
  match keys with
  | [] => ([], true)
  | k :: ks =>
    if convOk k then
      let rest := convertCRDs ks convOk
      (k :: rest.1, rest.2)
    else ([], false)

/-- Observable outcome of `main` from the conversion stage on. -/
structure RunOutcome where
  converted : List String
  exitCode : Nat
  organizeRan : Bool
  compactRan : Bool
deriving DecidableEq

/-- main.go:72-75: `convertCRDs` then `moveKclFiles` then
`removeEmptyDirs`; `os.Exit(1)` inside `convertCRDs` skips the rest. -/
def runPipeline (keys : List String) (convOk : String → Bool) : RunOutcome :=
  let r := convertCRDs keys convOk
  if r.2 then ⟨r.1, 0, true, true⟩ else ⟨r.1, 1, false, false⟩

/-- C7: if the converter subprocess fails (nonzero exit or spawn failure)
on some entry, the run halts right there with exit status 1: the entries
before it (in iteration order) are the only ones converted, nothing after
it is processed, and neither organize nor compaction runs. -/
theorem convert_failure_halts (pre : List String) (k : String)
    (post : List String) (convOk : String → Bool)
    (hpre : ∀ p ∈ pre, convOk p = true) (hk : convOk k = false) :
    runPipeline (pre ++ k :: post) convOk = ⟨pre, 1, false, false⟩ := by
  have hconv : convertCRDs (pre ++ k :: post) convOk = (pre, false) := by
    induction pre with
    | nil => rw [List.nil_append, convertCRDs, if_neg (by simp [hk])]
    | cons p pre ih =>
      rw [List.cons_append, convertCRDs, if_pos (hpre p (by simp))]
      rw [ih (fun q hq => hpre q (by simp [hq]))]
  rw [runPipeline, hconv, if_neg (by simp)]

/-- Witness for C7: with entries `a, b, c` where `b` fails, only `a` is
converted, the exit status is 1, and organize/compaction do not run. -/
theorem convert_failure_halts_witness :
    runPipeline ["a", "b", "c"] (fun s => !(s == "b"))
      = ⟨["a"], 1, false, false⟩ :=
  convert_failure_halts ["a"] "b" ["c"] (fun s => !(s == "b"))
    (by decide) (by decide)

/-- Counterexample to C8 as stated: `downloadFile` never inspects the HTTP
status code.  A 404 response is treated as success — its body is written
to the destination (overwriting the previous content) — and the run
carries on fetching the remaining entries and exits 0.  A non-2xx status
is not fatal; only transport errors are. -/
theorem downloadFile_ignores_status :
    downloadFile (some "old") (HttpResult.response 404 "NotFound")
        = (some "NotFound", true)
    ∧ downloadCRDs ["a", "b"]
        (fun k => if k = "a" then HttpResult.response 404 "NotFound"
                  else HttpResult.response 200 "good")
        = ([("a", some "NotFound"), ("b", some "good")], 0)
    ∧ ¬(200 ≤ 404 ∧ 404 < 300) := by
  refine ⟨rfl, rfl, by omega⟩

/-- C8 (amended): `fetch` streams the response body to the destination,
overwriting any prior content, for every response regardless of its
status code — a non-2xx response is not detected and is saved as a
success.  Only a transport-level network error is fatal: the destination
is left untouched, the run exits with status 1, and no later entry is
fetched. -/
theorem downloadFile_spec (dest : Option String) (s : Nat) (b : String) :
    downloadFile dest (HttpResult.response s b) = (some b, true)
    ∧ downloadFile dest HttpResult.netErr = (dest, false)
    ∧ ∀ (http : String → HttpResult) (pre : List String) (k : String)
        (post : List String),
        (∀ p ∈ pre, http p ≠ HttpResult.netErr) → http k = HttpResult.netErr →
        downloadCRDs (pre ++ k :: post) http
          = (pre.map (fun p => (p, some (bodyOf (http p)))), 1) := by
  refine ⟨rfl, rfl, ?_⟩
  intro http pre k post hpre hk
  induction pre with
  | nil =>
    rw [List.nil_append, List.map_nil, downloadCRDs]
    simp only [hk]
    simp [downloadFile]
  | cons p pre ih =>
    have hp : http p ≠ HttpResult.netErr := hpre p (by simp)
    cases hr : http p with
    | netErr => exact absurd hr hp
    | response st body =>
      rw [List.cons_append, downloadCRDs]
      simp only [hr, downloadFile]
      rw [ih (fun q hq => hpre q (by simp [hq]))]
      simp [bodyOf, hr]

/-- Witness for C8 (amended): a network error on `b` leaves only `a`
downloaded (with its body) and exits 1; `c` is never fetched. -/
theorem downloadFile_spec_witness :
    downloadCRDs ["a", "b", "c"]
        (fun kk => if kk = "b" then HttpResult.netErr
                   else HttpResult.response 200 "ok")
      = ([("a", some "ok")], 1) := by
  have h := (downloadFile_spec none 200 "ok").2.2
    (fun kk => if kk = "b" then HttpResult.netErr
               else HttpResult.response 200 "ok")
    ["a"] "b" ["c"] (by decide) (by decide)
  simpa [bodyOf] using h
